import Mathlib

/-!
Verification of the DAOS ad-hoc memory allocator ("ad_mem") slice and its
bdev-configuration collaborator, against the repository's specification.

The allocator engine itself (`ad_mem.c`) is not part of the visible sources;
only its cmocka test driver (`tests/ad_mem_tests.c`, here `part_002`) is.
The engine is therefore modelled from the specification (§3, §4.1-§4.3 of
spec.md): arenas with a committed watermark, a tentative pointer and a
free-extent registry; reserve / cancel as purely in-memory operations;
transactions that stage publish / free actions and apply them atomically
upon a successful WAL submit.  The Store Adapter's WAL-id counter and the
bdev test expectations are embedded directly from the sources under `src/`.
-/

namespace AdMem

/-- A free (or generally, an address) extent inside an arena:
arena-relative offset plus length in bytes.  Modelled from the spec:
"Free Extent Record: a durably published description of reclaimed space
(offset, length)". -/
structure FreeExt where
  off : Nat
  len : Nat
deriving DecidableEq, Repr

/-- Modelled from the spec: "Arena: a disjoint, fixed-size sub-range of a
blob's address space.  Attributes: index, base offset, size, committed
watermark, tentative pointer, free-extent registry." -/
structure Arena where
  base : Nat
  size : Nat
  watermark : Nat
  tentative : Nat
  frees : List FreeExt
deriving DecidableEq, Repr

/-- Where a reservation's bytes came from: the free-extent registry, or an
extension of the tentative pointer. -/
inductive RsvSrc where
  | fromFree : RsvSrc
  | fromTent : RsvSrc
deriving DecidableEq, Repr

/-- Modelled from the spec: "Reservation (Reserve Action): an in-memory-only
record describing a tentative allocation: arena index, offset, length, and
an opaque cookie used to later publish or cancel it"
(the cookie here records the source of the bytes). -/
structure Reserv where
  roff : Nat
  rlen : Nat
  rsrc : RsvSrc
deriving DecidableEq, Repr

/-- First-fit search of the free-extent registry: returns the offset handed
out and the registry with those `n` bytes removed (the front of the first
extent large enough).  Modelled from the spec: "first attempt to satisfy
from the free-extent registry (best-fit or first-fit over reusable
ranges)". -/
def takeFit (n : Nat) : List FreeExt → Option (Nat × List FreeExt)
  | [] => none
  | e :: es =>
    if n ≤ e.len then
      some (e.off, if e.len = n then es else ⟨e.off + n, e.len - n⟩ :: es)
    else
      match takeFit n es with
      | some (o, es') => some (o, e :: es')
      | none => none

/-- Insertion of a reclaimed extent into the (offset-sorted) registry,
coalescing with the extent that starts exactly where the inserted one ends.
Merging is an implementation choice per the spec; this model merges with the
successor, which restores registries split by `takeFit`. -/
def insFree (o n : Nat) : List FreeExt → List FreeExt
  | [] => [⟨o, n⟩]
  | e :: es =>
    if o + n = e.off then ⟨o, n + e.len⟩ :: es
    else if o + n < e.off then ⟨o, n⟩ :: e :: es
    else e :: insFree o n es

/-- Modelled from the spec (§4.2 `reserve`): within the chosen arena, first
try the free-extent registry; otherwise extend the tentative pointer by
`size` bytes, which must not exceed `arena_size`; a zero size is invalid and
no extent means no space (the caller sees the `0` sentinel address). -/
def ad_reserve (a : Arena) (n : Nat) : Option (Arena × Reserv) :=
  if n = 0 then none
  else
    match takeFit n a.frees with
    | some (o, fs) => some ({ a with frees := fs }, ⟨o, n, RsvSrc.fromFree⟩)
    | none =>
      if a.tentative + n ≤ a.size then
        some ({ a with tentative := a.tentative + n },
              ⟨a.tentative, n, RsvSrc.fromTent⟩)
      else none

/-- The address a reservation stands for: arena base plus offset. -/
def rsvAddr (a : Arena) (r : Reserv) : Nat := a.base + r.roff

/-- Modelled from the spec (§4.2 `cancel`): a registry-satisfied reservation
returns its extent to the registry unchanged; a tentative-extension
reservation rewinds the tentative pointer when it is the outermost one,
and otherwise leaves its range as a local gap for later in-memory
reservations.  Cancel never touches the backing store. -/
def ad_cancel (a : Arena) (r : Reserv) : Arena :=
  match r.rsrc with
  | RsvSrc.fromTent =>
    if r.roff + r.rlen = a.tentative then { a with tentative := r.roff }
    else { a with frees := insFree r.roff r.rlen a.frees }
  | RsvSrc.fromFree => { a with frees := insFree r.roff r.rlen a.frees }

/-- Well-formedness of a free-extent registry above a lower bound `lo`:
offsets are sorted, extents are non-empty and pairwise disjoint. -/
def chainW : Nat → List FreeExt → Prop
  | _, [] => True
  | lo, e :: es => lo ≤ e.off ∧ 0 < e.len ∧ chainW (e.off + e.len) es

theorem chainW_mono {lo lo' : Nat} {fs : List FreeExt} (h : chainW lo fs)
    (hle : lo' ≤ lo) : chainW lo' fs := by
  cases fs with
  | nil => trivial
  | cons e es => exact ⟨le_trans hle h.1, h.2.1, h.2.2⟩

/-- The first-fit offset lies above the registry's lower bound. -/
theorem takeFit_lo {n : Nat} {fs : List FreeExt} :
    ∀ {lo o : Nat} {fs' : List FreeExt}, chainW lo fs →
      takeFit n fs = some (o, fs') → lo ≤ o := by
  induction fs with
  | nil => intro lo o fs' _ h; simp [takeFit] at h
  | cons e es ih =>
    intro lo o fs' hc h
    obtain ⟨hlo, hlen, hch⟩ : lo ≤ e.off ∧ 0 < e.len ∧ chainW (e.off + e.len) es := hc
    simp only [takeFit] at h
    split at h
    · simp only [Option.some.injEq, Prod.mk.injEq] at h
      exact h.1 ▸ hlo
    · split at h
      · simp only [Option.some.injEq, Prod.mk.injEq] at h
        rename_i o' es' heq
        obtain ⟨ho, -⟩ := h
        have := ih hch heq
        omega
      · exact absurd h (by simp)

/-- First-fit removal keeps the registry well-formed. -/
theorem takeFit_chainW {n : Nat} {fs : List FreeExt} :
    ∀ {lo o : Nat} {fs' : List FreeExt}, chainW lo fs →
      takeFit n fs = some (o, fs') → chainW lo fs' := by
  induction fs with
  | nil => intro lo o fs' _ h; simp [takeFit] at h
  | cons e es ih =>
    intro lo o fs' hc h
    obtain ⟨hlo, hlen, hch⟩ : lo ≤ e.off ∧ 0 < e.len ∧ chainW (e.off + e.len) es := hc
    simp only [takeFit] at h
    split at h
    · rename_i hfit
      simp only [Option.some.injEq, Prod.mk.injEq] at h
      rcases h with ⟨-, h2⟩
      subst h2
      split
      · rename_i hexact
        exact chainW_mono hch (by omega)
      · rename_i hexact
        refine ⟨show lo ≤ e.off + n by omega, show 0 < e.len - n by omega, ?_⟩
        show chainW (e.off + n + (e.len - n)) es
        have : e.off + n + (e.len - n) = e.off + e.len := by omega
        exact this ▸ hch
    · split at h
      · simp only [Option.some.injEq, Prod.mk.injEq] at h
        rename_i o' es' heq
        rcases h with ⟨ho, h2⟩
        subst h2
        exact ⟨hlo, hlen, ih hch heq⟩
      · exact absurd h (by simp)

/-- A registry whose head is large enough serves the head's offset. -/
theorem takeFit_cons_of_le {n : Nat} {g : FreeExt} {rest : List FreeExt}
    (hg : n ≤ g.len) :
    ∃ fs2, takeFit n (g :: rest) = some (g.off, fs2) :=
  ⟨if g.len = n then rest else ⟨g.off + n, g.len - n⟩ :: rest, by
    simp only [takeFit, if_pos hg]⟩

/-- Inserting an extent that lies wholly right of the head skips the head. -/
theorem insFree_cons_skip {o n : Nat} {e : FreeExt} {es : List FreeExt}
    (h1 : e.off + e.len ≤ o) (h2 : 0 < e.len) :
    insFree o n (e :: es) = e :: insFree o n es := by
  simp only [insFree]
  rw [if_neg (by omega), if_neg (by omega)]

/-- Giving back exactly the bytes just taken by first-fit restores a registry
that again serves the same offset to an equal-sized request. -/
theorem takeFit_insFree {n : Nat} {fs : List FreeExt} :
    ∀ {lo o : Nat} {fs' : List FreeExt}, chainW lo fs →
      takeFit n fs = some (o, fs') →
      ∃ fs2, takeFit n (insFree o n fs') = some (o, fs2) := by
  induction fs with
  | nil => intro lo o fs' _ h; simp [takeFit] at h
  | cons e es ih =>
    intro lo o fs' hc h
    obtain ⟨hlo, hlen, hch⟩ : lo ≤ e.off ∧ 0 < e.len ∧ chainW (e.off + e.len) es := hc
    simp only [takeFit] at h
    split at h
    · rename_i hfit
      simp only [Option.some.injEq, Prod.mk.injEq] at h
      obtain ⟨ho, h2⟩ := h
      subst ho
      by_cases hexact : e.len = n
      · rw [if_pos hexact] at h2
        subst h2
        cases es with
        | nil =>
          show ∃ fs2, takeFit n [⟨e.off, n⟩] = some (e.off, fs2)
          exact takeFit_cons_of_le le_rfl
        | cons f es2 =>
          obtain ⟨hf1, hf2, -⟩ : e.off + e.len ≤ f.off ∧ 0 < f.len ∧
              chainW (f.off + f.len) es2 := hch
          by_cases hco : e.off + n = f.off
          · have hins : insFree e.off n (f :: es2) = ⟨e.off, n + f.len⟩ :: es2 := by
              simp only [insFree, if_pos hco]
            rw [hins]
            exact takeFit_cons_of_le (Nat.le_add_right n f.len)
          · have hlt : e.off + n < f.off := by omega
            have hins : insFree e.off n (f :: es2) = ⟨e.off, n⟩ :: f :: es2 := by
              simp only [insFree]
              rw [if_neg hco, if_pos hlt]
            rw [hins]
            exact takeFit_cons_of_le le_rfl
      · rw [if_neg hexact] at h2
        subst h2
        have hins : insFree e.off n (⟨e.off + n, e.len - n⟩ :: es) =
            ⟨e.off, n + (e.len - n)⟩ :: es := by
          unfold insFree
          rw [if_pos rfl]
        rw [hins]
        exact takeFit_cons_of_le (Nat.le_add_right _ _)
    · rename_i hfit
      split at h
      · simp only [Option.some.injEq, Prod.mk.injEq] at h
        rename_i o' es' heq
        obtain ⟨ho, h2⟩ := h
        subst ho; subst h2
        have hsk : e.off + e.len ≤ o' := takeFit_lo hch heq
        obtain ⟨fs2, hfs2⟩ := ih hch heq
        refine ⟨e :: fs2, ?_⟩
        rw [insFree_cons_skip hsk hlen]
        simp only [takeFit, if_neg hfit, hfs2]
      · exact absurd h (by simp)

/-- C3: if a reservation of `n` bytes succeeds and is canceled with no other
reservation issued in between, the next reservation of `n` bytes in that
arena returns exactly the same address. -/
theorem reserve_cancel_reserve_same_addr (a : Arena) (n : Nat)
    (a1 : Arena) (r : Reserv) (hwf : chainW 0 a.frees)
    (h : ad_reserve a n = some (a1, r)) :
    ∃ a2 r2, ad_reserve (ad_cancel a1 r) n = some (a2, r2) ∧
      rsvAddr a2 r2 = rsvAddr a1 r := by
  obtain ⟨ab, asz, awm, atent, afs⟩ := a
  simp only [ad_reserve] at h
  split at h
  · exact absurd h (by simp)
  · rename_i hn
    split at h
    · rename_i o fs heq
      simp only [Option.some.injEq, Prod.mk.injEq] at h
      obtain ⟨ha1, hr⟩ := h
      subst ha1; subst hr
      obtain ⟨fs2, hfs2⟩ := takeFit_insFree hwf heq
      refine ⟨⟨ab, asz, awm, atent, fs2⟩, ⟨o, n, RsvSrc.fromFree⟩, ?_, rfl⟩
      show ad_reserve ⟨ab, asz, awm, atent, insFree o n fs⟩ n = _
      simp only [ad_reserve, if_neg hn, hfs2]
    · rename_i heq
      split at h
      · rename_i hroom
        simp only [Option.some.injEq, Prod.mk.injEq] at h
        obtain ⟨ha1, hr⟩ := h
        subst ha1; subst hr
        refine ⟨⟨ab, asz, awm, atent + n, afs⟩, ⟨atent, n, RsvSrc.fromTent⟩,
          ?_, rfl⟩
        have hc : ad_cancel ⟨ab, asz, awm, atent + n, afs⟩
            ⟨atent, n, RsvSrc.fromTent⟩ = ⟨ab, asz, awm, atent, afs⟩ := by
          simp [ad_cancel]
        rw [hc]
        simp only [ad_reserve, if_neg hn, heq, if_pos hroom]
      · exact absurd h (by simp)

/-- Witness for `reserve_cancel_reserve_same_addr` on a fresh arena of
256 KiB at base 32 KiB with a 128-byte request (the scenario of
`adt_reserve_cancel`). -/
theorem reserve_cancel_reserve_same_addr_witness :
    ∃ a2 r2,
      ad_reserve
        (ad_cancel { base := 32768, size := 262144, watermark := 0,
                     tentative := 128, frees := [] }
          ⟨0, 128, RsvSrc.fromTent⟩) 128 = some (a2, r2) ∧
      rsvAddr a2 r2 =
        rsvAddr { base := 32768, size := 262144, watermark := 0,
                  tentative := 128, frees := [] } ⟨0, 128, RsvSrc.fromTent⟩ :=
  reserve_cancel_reserve_same_addr
    { base := 32768, size := 262144, watermark := 0, tentative := 0, frees := [] }
    128 _ _ trivial rfl

/-- An arena-level committed effect.  Modelled from the spec (§4.3):
a transaction's actions are "publish-reservation or free-extent". -/
inductive AdAction where
  | pub : Nat → Nat → AdAction
  | fre : Nat → Nat → AdAction
deriving DecidableEq, Repr

/-- Modelled from the spec (§4.3 `end`, Recovery): applying a publish
advances the watermark past the published reservation (and keeps the
tentative pointer at least there, which is a no-op for an in-memory commit
and rebuilds the pointer during replay); applying a free inserts the freed
extent into the registry. -/
def applyAction (a : Arena) : AdAction → Arena
  | AdAction.pub o n =>
    { a with watermark := max a.watermark (o + n),
             tentative := max a.tentative (o + n) }
  | AdAction.fre o n => { a with frees := insFree o n a.frees }

/-- One reserve-publish-commit cycle against a single arena: reserve `n`
bytes, publish the reservation in a transaction and commit it
(the `adt_reserve_publish` loop body). -/
def commitCycle (a : Arena) (n : Nat) : Option (Arena × Nat) :=
  match ad_reserve a n with
  | some (a1, r) => some (applyAction a1 (AdAction.pub r.roff r.rlen), rsvAddr a1 r)
  | none => none

/-- `N` consecutive reserve-publish-commit cycles, collecting the committed
addresses in order. -/
def runCycles (a : Arena) (n : Nat) : Nat → Option (Arena × List Nat)
  | 0 => some (a, [])
  | N + 1 =>
    match commitCycle a n with
    | some (a1, addr) =>
      match runCycles a1 n N with
      | some (a2, addrs) => some (a2, addr :: addrs)
      | none => none
    | none => none

/-- Running cycles of size `n` from a compacted state (watermark = tentative
pointer = `m`, empty registry) commits addresses `base + m + k*n`. -/
theorem runCycles_fresh (b sz n : Nat) (hn : 0 < n) :
    ∀ (N m : Nat), m + N * n ≤ sz →
      runCycles ⟨b, sz, m, m, []⟩ n N =
        some (⟨b, sz, m + N * n, m + N * n, []⟩,
              (List.range N).map (fun k => b + (m + k * n))) := by
  intro N
  induction N with
  | zero => intro m hm; simp [runCycles]
  | succ N ih =>
    intro m hm
    have hsm : (N + 1) * n = N * n + n := Nat.succ_mul N n
    have hle : m + n ≤ sz := by omega
    have hr : ad_reserve ⟨b, sz, m, m, []⟩ n =
        some (⟨b, sz, m, m + n, []⟩, ⟨m, n, RsvSrc.fromTent⟩) := by
      simp only [ad_reserve, takeFit]
      rw [if_neg (by omega)]
      show (if m + n ≤ sz then _ else _ : Option (Arena × Reserv)) = _
      rw [if_pos hle]
    have hcc : commitCycle ⟨b, sz, m, m, []⟩ n =
        some (⟨b, sz, m + n, m + n, []⟩, b + m) := by
      simp only [commitCycle, hr, applyAction, rsvAddr]
      rw [Nat.max_self, Nat.max_eq_right (Nat.le_add_right m n)]
    have ih' := ih (m + n) (by omega)
    simp only [runCycles, hcc, ih']
    have harena : m + n + N * n = m + (N + 1) * n := by omega
    have hlist : (b + m) :: (List.range N).map (fun k => b + (m + n + k * n)) =
        (List.range (N + 1)).map (fun k => b + (m + k * n)) := by
      rw [List.range_succ_eq_map, List.map_cons, List.map_map]
      refine congrArg₂ List.cons (by simp) ?_
      apply List.map_congr_left
      intro k hk
      simp only [Function.comp_apply, Nat.succ_mul]
      omega
    rw [harena, hlist]

/-- C4: `N` reserve-publish-commit cycles of equal size `s` on a fresh arena
with no cancels or frees commit the addresses `base + (k-1)*s` in order,
strictly increasing and never repeating. -/
theorem monotonic_commit (b sz s N : Nat) (hs : 0 < s) (hroom : N * s ≤ sz) :
    runCycles ⟨b, sz, 0, 0, []⟩ s N =
      some (⟨b, sz, N * s, N * s, []⟩,
            (List.range N).map (fun k => b + k * s)) ∧
    List.Pairwise (fun x y => x < y) ((List.range N).map (fun k => b + k * s)) := by
  constructor
  · have h := runCycles_fresh b sz s hs N 0 (by omega)
    simpa using h
  · refine List.Pairwise.map _ (fun x y hxy => ?_) (List.pairwise_lt_range N)
    have : x * s < y * s := (Nat.mul_lt_mul_right hs).mpr hxy
    omega

/-- Witness for `monotonic_commit`: 32 cycles of 48 bytes, as in
`adt_reserve_publish`. -/
theorem monotonic_commit_witness :
    runCycles ⟨32768, 262144, 0, 0, []⟩ 48 32 =
      some (⟨32768, 262144, 32 * 48, 32 * 48, []⟩,
            (List.range 32).map (fun k => 32768 + k * 48)) ∧
    List.Pairwise (fun x y => x < y)
      ((List.range 32).map (fun k => 32768 + k * 48)) :=
  monotonic_commit 32768 262144 48 32 (by decide) (by decide)

/-- A staged action at blob scope: the target arena's index plus the
arena-level effect. -/
structure BAction where
  aidx : Nat
  act : AdAction
deriving DecidableEq, Repr

/-- Apply an arena-level effect to the arena at the given index. -/
def applyArenaAt : List Arena → Nat → AdAction → List Arena
  | [], _, _ => []
  | a :: rest, 0, act => applyAction a act :: rest
  | a :: rest, Nat.succ i, act => a :: applyArenaAt rest i act

/-- Apply a transaction's staged actions, in order, to the blob's arenas. -/
def applyBActions (arenas : List Arena) (acts : List BAction) : List Arena :=
  acts.foldl (fun ar b => applyArenaAt ar b.aidx b.act) arenas

/-- A persisted WAL entry: transaction identifier plus its action list. -/
structure WalEntry where
  wid : Nat
  acts : List BAction
deriving DecidableEq, Repr

/-- Modelled from the spec (§3 Transaction): assigned WAL identifier plus the
ordered list of pending actions. -/
structure AdTx where
  txId : Nat
  staged : List BAction
deriving DecidableEq, Repr

/-- In-memory arenas plus the persisted WAL of the backing store. -/
structure BlobState where
  arenas : List Arena
  wal : List WalEntry
deriving DecidableEq, Repr

inductive AdErr where
  | walSubmitError : AdErr
deriving DecidableEq, Repr

/-- Modelled from the spec (§4.3 `end`): with the abort flag the staged
actions are discarded without writing; otherwise the action list goes to the
adapter's `submitWal` (its verdict is the `submitOk` argument) and, only on
success, every staged action is applied to in-memory arena state; if the
submit fails, no in-memory state changes and `end` fails with
`WalSubmitError`. -/
def ad_tx_end (st : BlobState) (tx : AdTx) (abortFlag : Bool) (submitOk : Bool) :
    BlobState × Option AdErr :=
  if abortFlag then (st, none)
  else if submitOk then
    ({ arenas := applyBActions st.arenas tx.staged,
       wal := st.wal ++ [⟨tx.txId, tx.staged⟩] }, none)
  else (st, some AdErr.walSubmitError)

/-- C1: ending a transaction without the abort flag is all-or-nothing with
the WAL write: a failed submit returns `WalSubmitError` and leaves the
in-memory state exactly as before; a successful submit applies every staged
action and appends the entry to the WAL. -/
theorem tx_end_all_or_nothing (st : BlobState) (tx : AdTx) (ok : Bool) :
    (ok = false →
      ad_tx_end st tx false ok = (st, some AdErr.walSubmitError)) ∧
    (ok = true →
      ad_tx_end st tx false ok =
        ({ arenas := applyBActions st.arenas tx.staged,
           wal := st.wal ++ [⟨tx.txId, tx.staged⟩] }, none)) := by
  constructor <;> intro h <;> subst h <;> rfl

/-- Witness for `tx_end_all_or_nothing`: a one-arena blob and a transaction
publishing 48 bytes at offset 0 of arena 0, under both submit verdicts. -/
theorem tx_end_all_or_nothing_witness :
    ad_tx_end ⟨[⟨32768, 262144, 0, 48, []⟩], []⟩ ⟨1, [⟨0, AdAction.pub 0 48⟩]⟩
        false false =
      (⟨[⟨32768, 262144, 0, 48, []⟩], []⟩, some AdErr.walSubmitError) ∧
    ad_tx_end ⟨[⟨32768, 262144, 0, 48, []⟩], []⟩ ⟨1, [⟨0, AdAction.pub 0 48⟩]⟩
        false true =
      ({ arenas := applyBActions [⟨32768, 262144, 0, 48, []⟩]
                     [⟨0, AdAction.pub 0 48⟩],
         wal := [] ++ [⟨1, [⟨0, AdAction.pub 0 48⟩]⟩] }, none) :=
  ⟨(tx_end_all_or_nothing ⟨[⟨32768, 262144, 0, 48, []⟩], []⟩
      ⟨1, [⟨0, AdAction.pub 0 48⟩]⟩ false).1 rfl,
   (tx_end_all_or_nothing ⟨[⟨32768, 262144, 0, 48, []⟩], []⟩
      ⟨1, [⟨0, AdAction.pub 0 48⟩]⟩ true).2 rfl⟩

/-- One transaction attempt: the staged transaction, the abort flag passed to
`end`, and whether the adapter's `submitWal` succeeds. -/
structure TxAttempt where
  tx : AdTx
  abFlag : Bool
  submitOk : Bool
deriving DecidableEq, Repr

/-- Run a sequence of transaction attempts against a blob state. -/
def runTxns (st : BlobState) : List TxAttempt → BlobState
  | [] => st
  | t :: ts => runTxns (ad_tx_end st t.tx t.abFlag t.submitOk).fst ts

/-- Modelled from the spec (§4.3 Recovery): on open, WAL entries with
identifiers newer than the last checkpointed header are replayed in order
against the checkpointed arena metadata. -/
def replayWal (arenas : List Arena) (ck : Nat) (wal : List WalEntry) :
    List Arena :=
  wal.foldl (fun ar e => if ck < e.wid then applyBActions ar e.acts else ar)
    arenas

theorem replayWal_append (arenas : List Arena) (ck : Nat)
    (w1 w2 : List WalEntry) :
    replayWal arenas ck (w1 ++ w2) = replayWal (replayWal arenas ck w1) ck w2 :=
  List.foldl_append _ _ _ _

/-- C2: for any sequence of transaction attempts whose identifiers are newer
than the checkpoint, replaying the persisted WAL against the checkpointed
arena metadata reproduces exactly the in-memory arenas at the moment of the
crash; and attempts that never completed `submitWal` successfully (failed
submit or abort) leave the state as if they were never attempted. -/
theorem crash_consistency (ck : Nat) (ts : List TxAttempt) (ckImg : List Arena)
    (st : BlobState) (hids : ∀ t ∈ ts, ck < t.tx.txId)
    (hck : replayWal ckImg ck st.wal = st.arenas) :
    replayWal ckImg ck (runTxns st ts).wal = (runTxns st ts).arenas ∧
    runTxns st ts =
      runTxns st (ts.filter (fun t => !t.abFlag && t.submitOk)) := by
  induction ts generalizing st with
  | nil => exact ⟨hck, rfl⟩
  | cons t ts ih =>
    have hids' : ∀ u ∈ ts, ck < u.tx.txId := fun u hu => hids u (by simp [hu])
    have hidt : ck < t.tx.txId := hids t (by simp)
    obtain ⟨t1, t2, t3⟩ := t
    cases t2 with
    | true =>
      have hstep : (ad_tx_end st t1 true t3).fst = st := rfl
      have h := ih st hids' hck
      refine ⟨?_, ?_⟩
      · simpa [runTxns, hstep] using h.1
      · simpa [runTxns, hstep, List.filter] using h.2
    | false =>
      cases t3 with
      | false =>
        have hstep : (ad_tx_end st t1 false false).fst = st := rfl
        have h := ih st hids' hck
        refine ⟨?_, ?_⟩
        · simpa [runTxns, hstep] using h.1
        · simpa [runTxns, hstep, List.filter] using h.2
      | true =>
        have hstep : (ad_tx_end st t1 false true).fst =
            ⟨applyBActions st.arenas t1.staged,
             st.wal ++ [⟨t1.txId, t1.staged⟩]⟩ := rfl
        have hck' : replayWal ckImg ck
            (st.wal ++ [⟨t1.txId, t1.staged⟩]) =
            applyBActions st.arenas t1.staged := by
          rw [replayWal_append, hck]
          simp [replayWal, hidt]
        have h := ih ⟨applyBActions st.arenas t1.staged,
            st.wal ++ [⟨t1.txId, t1.staged⟩]⟩ hids' hck'
        refine ⟨?_, ?_⟩
        · simpa [runTxns, hstep] using h.1
        · simpa [runTxns, hstep, List.filter] using h.2

/-- Witness for `crash_consistency`: one committed publish (id 1), one
failed submit (id 2) and one abort (id 3) against a one-arena blob with an
empty pre-run WAL and checkpoint 0. -/
theorem crash_consistency_witness :
    (replayWal [⟨32768, 262144, 0, 48, []⟩] 0
        (runTxns ⟨[⟨32768, 262144, 0, 48, []⟩], []⟩
          [⟨⟨1, [⟨0, AdAction.pub 0 48⟩]⟩, false, true⟩,
           ⟨⟨2, [⟨0, AdAction.pub 48 16⟩]⟩, false, false⟩,
           ⟨⟨3, [⟨0, AdAction.fre 0 48⟩]⟩, true, true⟩]).wal =
      (runTxns ⟨[⟨32768, 262144, 0, 48, []⟩], []⟩
          [⟨⟨1, [⟨0, AdAction.pub 0 48⟩]⟩, false, true⟩,
           ⟨⟨2, [⟨0, AdAction.pub 48 16⟩]⟩, false, false⟩,
           ⟨⟨3, [⟨0, AdAction.fre 0 48⟩]⟩, true, true⟩]).arenas) ∧
    runTxns ⟨[⟨32768, 262144, 0, 48, []⟩], []⟩
        [⟨⟨1, [⟨0, AdAction.pub 0 48⟩]⟩, false, true⟩,
         ⟨⟨2, [⟨0, AdAction.pub 48 16⟩]⟩, false, false⟩,
         ⟨⟨3, [⟨0, AdAction.fre 0 48⟩]⟩, true, true⟩] =
      runTxns ⟨[⟨32768, 262144, 0, 48, []⟩], []⟩
        ([⟨⟨1, [⟨0, AdAction.pub 0 48⟩]⟩, false, true⟩,
          ⟨⟨2, [⟨0, AdAction.pub 48 16⟩]⟩, false, false⟩,
          ⟨⟨3, [⟨0, AdAction.fre 0 48⟩]⟩, true, true⟩].filter
          (fun t => !t.abFlag && t.submitOk)) :=
  crash_consistency 0
    [⟨⟨1, [⟨0, AdAction.pub 0 48⟩]⟩, false, true⟩,
     ⟨⟨2, [⟨0, AdAction.pub 48 16⟩]⟩, false, false⟩,
     ⟨⟨3, [⟨0, AdAction.fre 0 48⟩]⟩, true, true⟩]
    [⟨32768, 262144, 0, 48, []⟩] ⟨[⟨32768, 262144, 0, 48, []⟩], []⟩
    (by decide) (by decide)

/-- Two extents are disjoint: their half-open byte ranges do not meet. -/
def extDisj (x y : FreeExt) : Prop := x.off + x.len ≤ y.off ∨ y.off + y.len ≤ x.off

instance (x y : FreeExt) : Decidable (extDisj x y) :=
  inferInstanceAs (Decidable (_ ∨ _))

theorem extDisj_symm {x y : FreeExt} (h : extDisj x y) : extDisj y x := by
  unfold extDisj at *; omega

/-- A sub-extent of `g` is disjoint from everything `g` is disjoint from. -/
theorem extDisj_of_sub (f g x : FreeExt) (h1 : g.off ≤ f.off)
    (h2 : f.off + f.len ≤ g.off + g.len) (h : extDisj g x) : extDisj f x := by
  unfold extDisj at *; omega

theorem chainW_pos {lo : Nat} {fs : List FreeExt} (hc : chainW lo fs) :
    ∀ f ∈ fs, 0 < f.len := by
  induction fs generalizing lo with
  | nil => intro f hf; cases hf
  | cons e es ih =>
    obtain ⟨-, hlen, hch⟩ : lo ≤ e.off ∧ 0 < e.len ∧ chainW (e.off + e.len) es := hc
    intro f hf
    rcases List.mem_cons.mp hf with h | h
    · exact h ▸ hlen
    · exact ih hch f h

theorem chainW_mem_lo {lo : Nat} {fs : List FreeExt} (hc : chainW lo fs) :
    ∀ f ∈ fs, lo ≤ f.off := by
  induction fs generalizing lo with
  | nil => intro f hf; cases hf
  | cons e es ih =>
    obtain ⟨hlo, hlen, hch⟩ : lo ≤ e.off ∧ 0 < e.len ∧ chainW (e.off + e.len) es := hc
    intro f hf
    rcases List.mem_cons.mp hf with h | h
    · exact h ▸ hlo
    · have := ih (chainW_mono hch (show lo ≤ e.off + e.len by omega)) f h
      exact this

/-- First-fit serves the front of some registry extent of sufficient size. -/
theorem takeFit_mem_src {n : Nat} {fs : List FreeExt} :
    ∀ {o : Nat} {fs' : List FreeExt}, takeFit n fs = some (o, fs') →
      ∃ l, n ≤ l ∧ (⟨o, l⟩ : FreeExt) ∈ fs := by
  induction fs with
  | nil => intro o fs' h; simp [takeFit] at h
  | cons e es ih =>
    intro o fs' h
    simp only [takeFit] at h
    split at h
    · rename_i hfit
      simp only [Option.some.injEq, Prod.mk.injEq] at h
      exact ⟨e.len, hfit, h.1 ▸ List.mem_cons_self e es⟩
    · split at h
      · simp only [Option.some.injEq, Prod.mk.injEq] at h
        rename_i o' es' heq
        obtain ⟨l, hl, hmem⟩ := ih heq
        exact ⟨l, hl, h.1 ▸ List.mem_cons_of_mem e hmem⟩
      · exact absurd h (by simp)

/-- Every extent surviving a first-fit removal is contained in an original
registry extent. -/
theorem takeFit_sub {n : Nat} {fs : List FreeExt} :
    ∀ {o : Nat} {fs' : List FreeExt}, takeFit n fs = some (o, fs') →
      ∀ f ∈ fs', ∃ g ∈ fs, g.off ≤ f.off ∧ f.off + f.len ≤ g.off + g.len := by
  induction fs with
  | nil => intro o fs' h; simp [takeFit] at h
  | cons e es ih =>
    intro o fs' h f hf
    simp only [takeFit] at h
    split at h
    · rename_i hfit
      simp only [Option.some.injEq, Prod.mk.injEq] at h
      obtain ⟨-, h2⟩ := h
      subst h2
      split at hf
      · exact ⟨f, List.mem_cons_of_mem e hf, le_refl _, le_refl _⟩
      · rcases List.mem_cons.mp hf with hh | hh
        · subst hh
          exact ⟨e, List.mem_cons_self e es, by simp, by simp; omega⟩
        · exact ⟨f, List.mem_cons_of_mem e hh, le_refl _, le_refl _⟩
    · split at h
      · simp only [Option.some.injEq, Prod.mk.injEq] at h
        rename_i o' es' heq
        obtain ⟨-, h2⟩ := h
        subst h2
        rcases List.mem_cons.mp hf with hh | hh
        · exact ⟨f, hh ▸ List.mem_cons_self e es, le_refl _, le_refl _⟩
        · obtain ⟨g, hg, hsub⟩ := ih heq f hh
          exact ⟨g, List.mem_cons_of_mem e hg, hsub⟩
      · exact absurd h (by simp)

/-- After first-fit removal of `n` bytes at `o`, every surviving registry
extent is disjoint from the removed range. -/
theorem takeFit_disj {n : Nat} {fs : List FreeExt} :
    ∀ {lo o : Nat} {fs' : List FreeExt}, chainW lo fs →
      takeFit n fs = some (o, fs') →
      ∀ f ∈ fs', extDisj f ⟨o, n⟩ := by
  induction fs with
  | nil => intro lo o fs' _ h; simp [takeFit] at h
  | cons e es ih =>
    intro lo o fs' hc h f hf
    obtain ⟨hlo, hlen, hch⟩ : lo ≤ e.off ∧ 0 < e.len ∧ chainW (e.off + e.len) es := hc
    simp only [takeFit] at h
    split at h
    · rename_i hfit
      simp only [Option.some.injEq, Prod.mk.injEq] at h
      obtain ⟨ho, h2⟩ := h
      subst ho; subst h2
      split at hf
      · rename_i hexact
        have hfo : e.off + e.len ≤ f.off := chainW_mem_lo hch f hf
        simp only [extDisj]
        omega
      · rename_i hexact
        rcases List.mem_cons.mp hf with hh | hh
        · subst hh
          simp only [extDisj]
          omega
        · have hfo : e.off + e.len ≤ f.off := chainW_mem_lo hch f hh
          simp only [extDisj]
          omega
    · split at h
      · simp only [Option.some.injEq, Prod.mk.injEq] at h
        rename_i o' es' heq
        obtain ⟨ho, h2⟩ := h
        subst ho; subst h2
        rcases List.mem_cons.mp hf with hh | hh
        · subst hh
          have := takeFit_lo hch heq
          simp only [extDisj]
          omega
        · exact ih hch heq f hh
      · exact absurd h (by simp)

/-- Coalescing insertion keeps the registry well-formed when the inserted
extent is disjoint from every present extent. -/
theorem insFree_chainW {o n : Nat} {fs : List FreeExt} :
    ∀ {lo : Nat}, chainW lo fs → lo ≤ o → 0 < n →
      (∀ f ∈ fs, extDisj ⟨o, n⟩ f) → chainW lo (insFree o n fs) := by
  induction fs with
  | nil => intro lo _ hlo hn _; exact ⟨hlo, hn, trivial⟩
  | cons e es ih =>
    intro lo hc hlo hn hdis
    obtain ⟨hlo2, hlen, hch⟩ : lo ≤ e.off ∧ 0 < e.len ∧ chainW (e.off + e.len) es := hc
    have hde : extDisj ⟨o, n⟩ e := hdis e (List.mem_cons_self e es)
    unfold insFree
    split
    · rename_i hco
      refine ⟨hlo, show 0 < n + e.len by omega, ?_⟩
      show chainW (o + (n + e.len)) es
      have : o + (n + e.len) = e.off + e.len := by omega
      exact this ▸ hch
    · split
      · rename_i hco hlt
        exact ⟨hlo, hn, show o + n ≤ e.off from le_of_lt hlt, hlen, hch⟩
      · rename_i hco hlt
        have hright : e.off + e.len ≤ o := by
          rcases hde with h | h
          · exact absurd (show o + n ≤ e.off from h) (by omega)
          · exact h
        refine ⟨hlo2, hlen, ?_⟩
        exact ih hch hright hn (fun f hf => hdis f (List.mem_cons_of_mem e hf))

/-- Coalescing insertion preserves an upper bound on extent ends. -/
theorem insFree_bound {o n B : Nat} {fs : List FreeExt} :
    (∀ f ∈ fs, f.off + f.len ≤ B) → o + n ≤ B →
      ∀ g ∈ insFree o n fs, g.off + g.len ≤ B := by
  induction fs with
  | nil =>
    intro _ hB g hg
    simp only [insFree, List.mem_singleton] at hg
    subst hg; exact hB
  | cons e es ih =>
    intro hall hB g hg
    have he : e.off + e.len ≤ B := hall e (List.mem_cons_self e es)
    unfold insFree at hg
    split at hg
    · rename_i hco
      rcases List.mem_cons.mp hg with hh | hh
      · subst hh; simp only; omega
      · exact hall g (List.mem_cons_of_mem e hh)
    · split at hg
      · rcases List.mem_cons.mp hg with hh | hh
        · subst hh; exact hB
        · exact hall g hh
      · rcases List.mem_cons.mp hg with hh | hh
        · subst hh; exact he
        · exact ih (fun f hf => hall f (List.mem_cons_of_mem e hf)) hB g hh

/-- Coalescing insertion preserves disjointness from a fixed non-empty
extent. -/
theorem insFree_disj {o n : Nat} {x : FreeExt} {fs : List FreeExt} :
    (∀ f ∈ fs, extDisj f x) → extDisj ⟨o, n⟩ x → 0 < x.len →
      ∀ g ∈ insFree o n fs, extDisj g x := by
  induction fs with
  | nil =>
    intro _ hox _ g hg
    simp only [insFree, List.mem_singleton] at hg
    subst hg; exact hox
  | cons e es ih =>
    intro hall hox hx g hg
    have he : extDisj e x := hall e (List.mem_cons_self e es)
    unfold insFree at hg
    split at hg
    · rename_i hco
      rcases List.mem_cons.mp hg with hh | hh
      · subst hh
        unfold extDisj at *
        simp only at *
        omega
      · exact hall g (List.mem_cons_of_mem e hh)
    · split at hg
      · rcases List.mem_cons.mp hg with hh | hh
        · subst hh; exact hox
        · exact hall g hh
      · rcases List.mem_cons.mp hg with hh | hh
        · subst hh; exact he
        · exact ih (fun f hf => hall f (List.mem_cons_of_mem e hf)) hox hx g hh

/-- An element of a pairwise-irreflexive list does not survive its own
erasure. -/
theorem not_mem_erase_self {α : Type} [DecidableEq α] {R : α → α → Prop}
    {l : List α} {a : α} (hp : List.Pairwise R l) (hR : ¬R a a) :
    a ∉ l.erase a := by
  induction l with
  | nil => simp
  | cons x xs ih =>
    rw [List.erase_cons]
    split
    · rename_i hx
      have hx' : x = a := by simpa using hx
      subst hx'
      intro ha
      exact hR (List.rel_of_pairwise_cons hp ha)
    · rename_i hx
      have hx' : x ≠ a := by simpa using hx
      intro ha
      rcases List.mem_cons.mp ha with hh | hh
      · exact hx' hh.symm
      · exact ih hp.of_cons hh

/-- In a pairwise-disjoint list, an erased member is related to everything
that remains. -/
theorem rel_erase_of_pairwise {α : Type} [DecidableEq α] {R : α → α → Prop}
    (hsym : ∀ x y, R x y → R y x) {l : List α} {a : α}
    (hp : List.Pairwise R l) (hR : ¬R a a) (ha : a ∈ l) :
    ∀ b ∈ l.erase a, R a b := by
  intro b hb
  have hbl : b ∈ l := List.mem_of_mem_erase hb
  by_cases hab : b = a
  · exact absurd (hab ▸ hb) (not_mem_erase_self hp hR)
  · exact List.Pairwise.forall (fun x y h => hsym x y h) hp ha hbl
      (fun h => hab h.symm)

theorem extDisj_irrefl {x : FreeExt} (hx : 0 < x.len) : ¬extDisj x x := by
  simp only [extDisj]
  omega

/-- The extent a reservation covers. -/
def rext (r : Reserv) : FreeExt := ⟨r.roff, r.rlen⟩

/-- The full protocol state of one arena: the arena record, the outstanding
(unresolved) reservations, and the ranges currently committed as
allocated. -/
structure ArenaSt where
  ar : Arena
  outs : List Reserv
  committed : List FreeExt
deriving DecidableEq, Repr

/-- The per-arena allocation protocol (spec §4.2-§4.3): reserve, cancel an
outstanding reservation, publish an outstanding reservation through a
committed transaction, or commit a free of an allocated range. -/
inductive AStep : ArenaSt → ArenaSt → Prop where
  | reserve (s : ArenaSt) (n : Nat) (a1 : Arena) (r : Reserv) :
      ad_reserve s.ar n = some (a1, r) →
      AStep s ⟨a1, r :: s.outs, s.committed⟩
  | cancel (s : ArenaSt) (r : Reserv) : r ∈ s.outs →
      AStep s ⟨ad_cancel s.ar r, s.outs.erase r, s.committed⟩
  | pubCommit (s : ArenaSt) (r : Reserv) : r ∈ s.outs →
      AStep s ⟨applyAction s.ar (AdAction.pub r.roff r.rlen),
               s.outs.erase r, rext r :: s.committed⟩
  | freeCommit (s : ArenaSt) (e : FreeExt) : e ∈ s.committed →
      AStep s ⟨applyAction s.ar (AdAction.fre e.off e.len),
               s.outs, s.committed.erase e⟩

/-- The arena bookkeeping invariant maintained by the protocol: pointer
ordering, a well-formed registry below the tentative pointer, committed
ranges pairwise disjoint below the watermark, outstanding reservations
pairwise disjoint below the tentative pointer, mutual disjointness of the
three families, and the watermark never inside an outstanding
tentative-extension reservation. -/
structure Inv (s : ArenaSt) : Prop where
  wmle : s.ar.watermark ≤ s.ar.tentative
  tle : s.ar.tentative ≤ s.ar.size
  fch : chainW 0 s.ar.frees
  fbd : ∀ f ∈ s.ar.frees, f.off + f.len ≤ s.ar.tentative
  cpw : List.Pairwise extDisj s.committed
  cpos : ∀ e ∈ s.committed, 0 < e.len
  cbd : ∀ e ∈ s.committed, e.off + e.len ≤ s.ar.watermark
  opw : List.Pairwise (fun r1 r2 => extDisj (rext r1) (rext r2)) s.outs
  opos : ∀ r ∈ s.outs, 0 < r.rlen
  obd : ∀ r ∈ s.outs, r.roff + r.rlen ≤ s.ar.tentative
  ofr : ∀ r ∈ s.outs, ∀ f ∈ s.ar.frees, extDisj (rext r) f
  ocm : ∀ r ∈ s.outs, ∀ e ∈ s.committed, extDisj (rext r) e
  fcm : ∀ f ∈ s.ar.frees, ∀ e ∈ s.committed, extDisj f e
  tmk : ∀ r ∈ s.outs, r.rsrc = RsvSrc.fromTent →
    s.ar.watermark ≤ r.roff ∨ r.roff + r.rlen < s.ar.watermark

/-- Canceling into the registry (a registry-sourced reservation, or an inner
tentative gap) preserves the invariant. -/
theorem inv_gap_insert {s : ArenaSt} (hs : Inv s) {r : Reserv}
    (hmem : r ∈ s.outs) :
    Inv ⟨{ s.ar with frees := insFree r.roff r.rlen s.ar.frees },
         s.outs.erase r, s.committed⟩ := by
  obtain ⟨wmle, tle, fch, fbd, cpw, cpos, cbd, opw, opos, obd, ofr, ocm, fcm,
    tmk⟩ := hs
  have hrp : 0 < r.rlen := opos r hmem
  have hirr : ¬extDisj (rext r) (rext r) := extDisj_irrefl hrp
  have hrel : ∀ r' ∈ s.outs.erase r, extDisj (rext r) (rext r') :=
    rel_erase_of_pairwise (fun x y h => extDisj_symm h) opw hirr hmem
  refine ⟨wmle, tle, ?_, ?_, cpw, cpos, cbd,
    opw.sublist (List.erase_sublist r s.outs),
    fun r' hr' => opos r' (List.mem_of_mem_erase hr'),
    fun r' hr' => obd r' (List.mem_of_mem_erase hr'), ?_,
    fun r' hr' => ocm r' (List.mem_of_mem_erase hr'), ?_,
    fun r' hr' => tmk r' (List.mem_of_mem_erase hr')⟩
  · exact insFree_chainW fch (Nat.zero_le _) hrp
      (fun f hf => ofr r hmem f hf)
  · exact insFree_bound fbd (obd r hmem)
  · intro r' hr' g hg
    have hall : ∀ f ∈ s.ar.frees, extDisj f (rext r') :=
      fun f hf => extDisj_symm (ofr r' (List.mem_of_mem_erase hr') f hf)
    exact extDisj_symm
      (insFree_disj hall (hrel r' hr') (opos r' (List.mem_of_mem_erase hr'))
        g hg)
  · intro g hg e he
    exact insFree_disj (fun f hf => fcm f hf e he) (ocm r hmem e he)
      (cpos e he) g hg

/-- Every protocol step preserves the arena invariant. -/
theorem inv_step {s s' : ArenaSt} (hs : Inv s) (hst : AStep s s') : Inv s' := by
  obtain ⟨wmle, tle, fch, fbd, cpw, cpos, cbd, opw, opos, obd, ofr, ocm, fcm,
    tmk⟩ := hs
  cases hst with
  | reserve n a1 r hres =>
    simp only [ad_reserve] at hres
    split at hres
    · exact absurd hres (by simp)
    · rename_i hn
      have hn' : 0 < n := Nat.pos_of_ne_zero hn
      split at hres
      · rename_i o fs' heq
        simp only [Option.some.injEq, Prod.mk.injEq] at hres
        obtain ⟨ha1, hr⟩ := hres
        subst ha1; subst hr
        obtain ⟨l, hnl, hsrc⟩ := takeFit_mem_src heq
        have hsrcb : o + l ≤ s.ar.tentative := fbd _ hsrc
        have hsub := takeFit_sub heq
        have hdisj := takeFit_disj fch heq
        refine ⟨wmle, tle, takeFit_chainW fch heq, ?_, cpw, cpos, cbd,
          ?_, ?_, ?_, ?_, ?_, ?_, ?_⟩
        · intro f hf
          obtain ⟨g, hg, h1, h2⟩ := hsub f hf
          have := fbd g hg
          show f.off + f.len ≤ s.ar.tentative
          omega
        · refine List.Pairwise.cons ?_ opw
          intro r' hr'
          have h2 : extDisj ⟨o, l⟩ (rext r') :=
            extDisj_symm (ofr r' hr' _ hsrc)
          exact extDisj_of_sub (rext ⟨o, n, RsvSrc.fromFree⟩) ⟨o, l⟩ _
            (le_refl _) (show o + n ≤ o + l by omega) h2
        · intro r' hr'
          rcases List.mem_cons.mp hr' with hh | hh
          · exact hh ▸ hn'
          · exact opos r' hh
        · intro r' hr'
          rcases List.mem_cons.mp hr' with hh | hh
          · subst hh
            show o + n ≤ s.ar.tentative
            omega
          · exact obd r' hh
        · intro r' hr' f hf
          rcases List.mem_cons.mp hr' with hh | hh
          · subst hh
            exact extDisj_symm (hdisj f hf)
          · obtain ⟨g, hg, h1, h2⟩ := hsub f hf
            exact extDisj_symm
              (extDisj_of_sub f g _ h1 h2 (extDisj_symm (ofr r' hh g hg)))
        · intro r' hr' e he
          rcases List.mem_cons.mp hr' with hh | hh
          · subst hh
            exact extDisj_of_sub (rext ⟨o, n, RsvSrc.fromFree⟩) ⟨o, l⟩ _
              (le_refl _) (show o + n ≤ o + l by omega) (fcm _ hsrc e he)
          · exact ocm r' hh e he
        · intro f hf e he
          obtain ⟨g, hg, h1, h2⟩ := hsub f hf
          exact extDisj_of_sub f g _ h1 h2 (fcm g hg e he)
        · intro r' hr' hsrc'
          rcases List.mem_cons.mp hr' with hh | hh
          · subst hh
            exact absurd hsrc' (by simp)
          · exact tmk r' hh hsrc'
      · rename_i heq
        split at hres
        · rename_i hroom
          simp only [Option.some.injEq, Prod.mk.injEq] at hres
          obtain ⟨ha1, hr⟩ := hres
          subst ha1; subst hr
          refine ⟨show s.ar.watermark ≤ s.ar.tentative + n by omega, hroom,
            fch, ?_, cpw, cpos, cbd, ?_, ?_, ?_, ?_, ?_, fcm, ?_⟩
          · intro f hf
            have := fbd f hf
            show f.off + f.len ≤ s.ar.tentative + n
            omega
          · refine List.Pairwise.cons ?_ opw
            intro r' hr'
            exact Or.inr (obd r' hr')
          · intro r' hr'
            rcases List.mem_cons.mp hr' with hh | hh
            · exact hh ▸ hn'
            · exact opos r' hh
          · intro r' hr'
            rcases List.mem_cons.mp hr' with hh | hh
            · subst hh
              exact le_refl _
            · have := obd r' hh
              show r'.roff + r'.rlen ≤ s.ar.tentative + n
              omega
          · intro r' hr' f hf
            rcases List.mem_cons.mp hr' with hh | hh
            · subst hh
              exact Or.inr (fbd f hf)
            · exact ofr r' hh f hf
          · intro r' hr' e he
            rcases List.mem_cons.mp hr' with hh | hh
            · subst hh
              have := cbd e he
              exact Or.inr (by show e.off + e.len ≤ s.ar.tentative; omega)
            · exact ocm r' hh e he
          · intro r' hr' hsrc'
            rcases List.mem_cons.mp hr' with hh | hh
            · subst hh
              exact Or.inl wmle
            · exact tmk r' hh hsrc'
        · exact absurd hres (by simp)
  | cancel r hmem =>
    have hrp : 0 < r.rlen := opos r hmem
    have hirr : ¬extDisj (rext r) (rext r) := extDisj_irrefl hrp
    have hrel : ∀ r' ∈ s.outs.erase r, extDisj (rext r) (rext r') :=
      rel_erase_of_pairwise (fun x y h => extDisj_symm h) opw hirr hmem
    cases hsrc : r.rsrc with
    | fromFree =>
      have hca : ad_cancel s.ar r =
          { s.ar with frees := insFree r.roff r.rlen s.ar.frees } := by
        simp only [ad_cancel, hsrc]
      rw [hca]
      exact inv_gap_insert
        ⟨wmle, tle, fch, fbd, cpw, cpos, cbd, opw, opos, obd, ofr, ocm, fcm,
          tmk⟩ hmem
    | fromTent =>
      by_cases hrw : r.roff + r.rlen = s.ar.tentative
      · have hca : ad_cancel s.ar r = { s.ar with tentative := r.roff } := by
          simp only [ad_cancel, hsrc]
          rw [if_pos hrw]
        rw [hca]
        have hwm_off : s.ar.watermark ≤ r.roff := by
          rcases tmk r hmem hsrc with h | h
          · exact h
          · omega
        have houts : ∀ r' ∈ s.outs.erase r, r'.roff + r'.rlen ≤ r.roff := by
          intro r' hr'
          have hd : r.roff + r.rlen ≤ r'.roff ∨ r'.roff + r'.rlen ≤ r.roff :=
            hrel r' hr'
          have hb := obd r' (List.mem_of_mem_erase hr')
          have hp := opos r' (List.mem_of_mem_erase hr')
          omega
        have hfr2 : ∀ f ∈ s.ar.frees, f.off + f.len ≤ r.roff := by
          intro f hf
          have hd : r.roff + r.rlen ≤ f.off ∨ f.off + f.len ≤ r.roff :=
            ofr r hmem f hf
          have hb := fbd f hf
          have hp := chainW_pos fch f hf
          omega
        refine ⟨hwm_off, show r.roff ≤ s.ar.size by omega, fch, hfr2, cpw, cpos, cbd,
          opw.sublist (List.erase_sublist r s.outs),
          fun r' hr' => opos r' (List.mem_of_mem_erase hr'), houts,
          fun r' hr' => ofr r' (List.mem_of_mem_erase hr'),
          fun r' hr' => ocm r' (List.mem_of_mem_erase hr'), fcm,
          fun r' hr' => tmk r' (List.mem_of_mem_erase hr')⟩
      · have hca : ad_cancel s.ar r =
            { s.ar with frees := insFree r.roff r.rlen s.ar.frees } := by
          simp only [ad_cancel, hsrc]
          rw [if_neg hrw]
        rw [hca]
        exact inv_gap_insert
          ⟨wmle, tle, fch, fbd, cpw, cpos, cbd, opw, opos, obd, ofr, ocm,
            fcm, tmk⟩ hmem
  | pubCommit r hmem =>
    have hend := obd r hmem
    have hrp : 0 < r.rlen := opos r hmem
    have hirr : ¬extDisj (rext r) (rext r) := extDisj_irrefl hrp
    have hrel : ∀ r' ∈ s.outs.erase r, extDisj (rext r) (rext r') :=
      rel_erase_of_pairwise (fun x y h => extDisj_symm h) opw hirr hmem
    simp only [applyAction]
    rw [Nat.max_eq_left hend]
    refine ⟨?_, tle, fch, fbd, ?_, ?_, ?_,
      opw.sublist (List.erase_sublist r s.outs),
      fun r' hr' => opos r' (List.mem_of_mem_erase hr'),
      fun r' hr' => obd r' (List.mem_of_mem_erase hr'),
      fun r' hr' => ofr r' (List.mem_of_mem_erase hr'), ?_, ?_, ?_⟩
    · show max s.ar.watermark (r.roff + r.rlen) ≤ s.ar.tentative
      omega
    · exact List.Pairwise.cons (fun e he => ocm r hmem e he) cpw
    · intro e he
      rcases List.mem_cons.mp he with hh | hh
      · exact hh ▸ hrp
      · exact cpos e hh
    · intro e he
      rcases List.mem_cons.mp he with hh | hh
      · subst hh
        show r.roff + r.rlen ≤ max s.ar.watermark (r.roff + r.rlen)
        omega
      · have := cbd e hh
        show e.off + e.len ≤ max s.ar.watermark (r.roff + r.rlen)
        omega
    · intro r' hr' e he
      rcases List.mem_cons.mp he with hh | hh
      · exact hh ▸ extDisj_symm (hrel r' hr')
      · exact ocm r' (List.mem_of_mem_erase hr') e hh
    · intro f hf e he
      rcases List.mem_cons.mp he with hh | hh
      · exact hh ▸ extDisj_symm (ofr r hmem f hf)
      · exact fcm f hf e hh
    · intro r' hr' hsrc'
      have h1 := tmk r' (List.mem_of_mem_erase hr') hsrc'
      have h2 : r.roff + r.rlen ≤ r'.roff ∨ r'.roff + r'.rlen ≤ r.roff :=
        hrel r' hr'
      show max s.ar.watermark (r.roff + r.rlen) ≤ r'.roff ∨
        r'.roff + r'.rlen < max s.ar.watermark (r.roff + r.rlen)
      omega
  | freeCommit e hmem =>
    have hep : 0 < e.len := cpos e hmem
    have hebd := cbd e hmem
    have hirr : ¬extDisj e e := extDisj_irrefl hep
    have hrelc : ∀ e' ∈ s.committed.erase e, extDisj e e' :=
      rel_erase_of_pairwise (fun x y h => extDisj_symm h) cpw hirr hmem
    simp only [applyAction]
    refine ⟨wmle, tle, ?_, ?_, cpw.sublist (List.erase_sublist e s.committed),
      fun e' he' => cpos e' (List.mem_of_mem_erase he'),
      fun e' he' => cbd e' (List.mem_of_mem_erase he'),
      opw, opos, obd, ?_,
      fun r' hr' e' he' => ocm r' hr' e' (List.mem_of_mem_erase he'),
      ?_, tmk⟩
    · exact insFree_chainW fch (Nat.zero_le _) hep
        (fun f hf => extDisj_symm (fcm f hf e hmem))
    · exact insFree_bound fbd (show e.off + e.len ≤ s.ar.tentative by omega)
    · intro r' hr' g hg
      exact extDisj_symm
        (insFree_disj (fun f hf => extDisj_symm (ofr r' hr' f hf))
          (extDisj_symm (ocm r' hr' e hmem)) (opos r' hr') g hg)
    · intro g hg e' he'
      exact insFree_disj
        (fun f hf => fcm f hf e' (List.mem_of_mem_erase he'))
        (hrelc e' he') (cpos e' (List.mem_of_mem_erase he')) g hg

/-- A freshly created arena: pointers at zero, empty registry, nothing
outstanding or committed. -/
def initSt (b sz : Nat) : ArenaSt := ⟨⟨b, sz, 0, 0, []⟩, [], []⟩

theorem inv_init (b sz : Nat) : Inv (initSt b sz) :=
  ⟨le_refl _, Nat.zero_le _, trivial,
   fun _ hf => absurd hf (List.not_mem_nil _),
   List.Pairwise.nil,
   fun _ he => absurd he (List.not_mem_nil _),
   fun _ he => absurd he (List.not_mem_nil _),
   List.Pairwise.nil,
   fun _ hr => absurd hr (List.not_mem_nil _),
   fun _ hr => absurd hr (List.not_mem_nil _),
   fun _ hr => absurd hr (List.not_mem_nil _),
   fun _ hr => absurd hr (List.not_mem_nil _),
   fun _ hf => absurd hf (List.not_mem_nil _),
   fun _ hr => absurd hr (List.not_mem_nil _)⟩

theorem inv_reach {s0 s : ArenaSt} (h : Relation.ReflTransGen AStep s0 s)
    (h0 : Inv s0) : Inv s := by
  induction h with
  | refl => exact h0
  | tail hab hbc ih => exact inv_step ih hbc

/-- C5: in every protocol-reachable state of an arena the committed
reservation ranges are pairwise disjoint, and every range handed out by
`reserve` that is still outstanding is disjoint from every committed range —
so a committed range is never handed out again before an explicit free
commits (the free removes it from the committed family). -/
theorem no_double_allocation (b sz : Nat) (s : ArenaSt)
    (h : Relation.ReflTransGen AStep (initSt b sz) s) :
    List.Pairwise extDisj s.committed ∧
    ∀ r ∈ s.outs, ∀ e ∈ s.committed, extDisj (rext r) e :=
  have hinv := inv_reach h (inv_init b sz)
  ⟨hinv.cpw, hinv.ocm⟩

/-- Witness for `no_double_allocation`: reserve 48 bytes, publish and commit
them, then reserve 16 more — the committed range and the outstanding one are
disjoint. -/
theorem no_double_allocation_witness :
    List.Pairwise extDisj
      (ArenaSt.mk ⟨32768, 262144, 48, 64, []⟩ [⟨48, 16, RsvSrc.fromTent⟩]
        [⟨0, 48⟩]).committed ∧
    ∀ r ∈ (ArenaSt.mk ⟨32768, 262144, 48, 64, []⟩ [⟨48, 16, RsvSrc.fromTent⟩]
        [⟨0, 48⟩]).outs,
      ∀ e ∈ (ArenaSt.mk ⟨32768, 262144, 48, 64, []⟩
          [⟨48, 16, RsvSrc.fromTent⟩] [⟨0, 48⟩]).committed,
        extDisj (rext r) e :=
  no_double_allocation 32768 262144 _
    (Relation.ReflTransGen.head
      (AStep.reserve (initSt 32768 262144) 48 ⟨32768, 262144, 0, 48, []⟩
        ⟨0, 48, RsvSrc.fromTent⟩ rfl)
      (Relation.ReflTransGen.head
        (AStep.pubCommit
          ⟨⟨32768, 262144, 0, 48, []⟩, [⟨0, 48, RsvSrc.fromTent⟩], []⟩
          ⟨0, 48, RsvSrc.fromTent⟩ (by decide))
        (Relation.ReflTransGen.single
          (AStep.reserve ⟨⟨32768, 262144, 48, 48, []⟩, [], [⟨0, 48⟩]⟩ 16
            ⟨32768, 262144, 48, 64, []⟩ ⟨48, 16, RsvSrc.fromTent⟩ rfl))))

/-- Validity of a replayed WAL action against an arena size: a publish must
lie inside the arena. -/
def actBound (act : AdAction) (sz : Nat) : Prop :=
  match act with
  | AdAction.pub o n => o + n ≤ sz
  | AdAction.fre _ _ => True

instance instDecActBound :
    (act : AdAction) → (sz : Nat) → Decidable (actBound act sz)
  | AdAction.pub o n, sz => inferInstanceAs (Decidable (o + n ≤ sz))
  | AdAction.fre _ _, _ => inferInstanceAs (Decidable True)

/-- Replay a list of arena-level actions in order (the recovery path of
`postOpen`, and the apply phase of a committed transaction). -/
def applyActions (a : Arena) (acts : List AdAction) : Arena :=
  acts.foldl applyAction a

theorem applyActions_bounds : ∀ (acts : List AdAction) (a : Arena),
    a.watermark ≤ a.tentative → a.tentative ≤ a.size →
    (∀ act ∈ acts, actBound act a.size) →
    (applyActions a acts).watermark ≤ (applyActions a acts).tentative ∧
    (applyActions a acts).tentative ≤ (applyActions a acts).size := by
  intro acts
  induction acts with
  | nil => intro a h1 h2 _; exact ⟨h1, h2⟩
  | cons act rest ih =>
    intro a h1 h2 hacts
    have hb := hacts act (List.mem_cons_self _ _)
    have hsz : (applyAction a act).size = a.size := by
      cases act <;> rfl
    have hw : (applyAction a act).watermark ≤ (applyAction a act).tentative := by
      cases act with
      | pub o n =>
        show max a.watermark (o + n) ≤ max a.tentative (o + n)
        omega
      | fre o n => exact h1
    have ht : (applyAction a act).tentative ≤ (applyAction a act).size := by
      cases act with
      | pub o n =>
        have hb' : o + n ≤ a.size := hb
        show max a.tentative (o + n) ≤ a.size
        omega
      | fre o n => exact h2
    exact ih (applyAction a act) hw ht
      (fun x hx => hsz.symm ▸ hacts x (List.mem_cons_of_mem _ hx))

/-- C6: `watermark ≤ tentative_pointer ≤ arena_size` holds after every
operation in any protocol-reachable arena state (reserve, cancel,
publish-commit, free-commit), and is preserved by replaying any in-bounds
action list on open/recovery. -/
theorem watermark_tentative_size (b sz : Nat) (s : ArenaSt)
    (h : Relation.ReflTransGen AStep (initSt b sz) s)
    (a : Arena) (acts : List AdAction)
    (hwm : a.watermark ≤ a.tentative) (hts : a.tentative ≤ a.size)
    (hacts : ∀ act ∈ acts, actBound act a.size) :
    (s.ar.watermark ≤ s.ar.tentative ∧ s.ar.tentative ≤ s.ar.size) ∧
    ((applyActions a acts).watermark ≤ (applyActions a acts).tentative ∧
     (applyActions a acts).tentative ≤ (applyActions a acts).size) :=
  have hinv := inv_reach h (inv_init b sz)
  ⟨⟨hinv.wmle, hinv.tle⟩, applyActions_bounds acts a hwm hts hacts⟩

/-- Witness for `watermark_tentative_size`: one reserve step, and a replay of
a publish followed by a free. -/
theorem watermark_tentative_size_witness :
    ((ArenaSt.mk ⟨32768, 262144, 0, 48, []⟩ [⟨0, 48, RsvSrc.fromTent⟩]
        []).ar.watermark ≤
      (ArenaSt.mk ⟨32768, 262144, 0, 48, []⟩ [⟨0, 48, RsvSrc.fromTent⟩]
        []).ar.tentative ∧
      (ArenaSt.mk ⟨32768, 262144, 0, 48, []⟩ [⟨0, 48, RsvSrc.fromTent⟩]
        []).ar.tentative ≤
      (ArenaSt.mk ⟨32768, 262144, 0, 48, []⟩ [⟨0, 48, RsvSrc.fromTent⟩]
        []).ar.size) ∧
    ((applyActions ⟨32768, 262144, 48, 48, []⟩
        [AdAction.pub 48 16, AdAction.fre 0 48]).watermark ≤
      (applyActions ⟨32768, 262144, 48, 48, []⟩
        [AdAction.pub 48 16, AdAction.fre 0 48]).tentative ∧
      (applyActions ⟨32768, 262144, 48, 48, []⟩
        [AdAction.pub 48 16, AdAction.fre 0 48]).tentative ≤
      (applyActions ⟨32768, 262144, 48, 48, []⟩
        [AdAction.pub 48 16, AdAction.fre 0 48]).size) :=
  watermark_tentative_size 32768 262144
    ⟨⟨32768, 262144, 0, 48, []⟩, [⟨0, 48, RsvSrc.fromTent⟩], []⟩
    (Relation.ReflTransGen.single
      (AStep.reserve (initSt 32768 262144) 48 ⟨32768, 262144, 0, 48, []⟩
        ⟨0, 48, RsvSrc.fromTent⟩ rfl))
    ⟨32768, 262144, 48, 48, []⟩ [AdAction.pub 48 16, AdAction.fre 0 48]
    (by decide) (by decide) (by decide)

/-- Embedded from `adt_store_wal_rsv` (part_002, lines 54-61): the test's
Store Adapter keeps a static `uint64_t wal_id`; each call stores the current
value into `*id` and post-increments.  64-bit machine arithmetic is modelled
as naturals modulo `2^64`.  Input: current counter; output: (returned id,
new counter). -/
def adt_store_wal_rsv (walId : Nat) : Nat × Nat :=
  (walId % 2 ^ 64, (walId + 1) % 2 ^ 64)

/-- The counter value before the k-th call (a C static starts at zero). -/
def walCounter : Nat → Nat
  | 0 => 0
  | k + 1 => (adt_store_wal_rsv (walCounter k)).snd

/-- The identifier returned by the k-th `reserveWalId` call. -/
def walIdAt (k : Nat) : Nat := (adt_store_wal_rsv (walCounter k)).fst

theorem walCounter_eq (k : Nat) : walCounter k = k % 2 ^ 64 := by
  induction k with
  | zero => rfl
  | succ k ih =>
    show (walCounter k + 1) % 2 ^ 64 = (k + 1) % 2 ^ 64
    rw [ih, Nat.add_mod k 1, Nat.mod_eq_of_lt (show 1 < 2 ^ 64 by norm_num)]

theorem walIdAt_eq (k : Nat) : walIdAt k = k % 2 ^ 64 := by
  show walCounter k % 2 ^ 64 = k % 2 ^ 64
  rw [walCounter_eq, Nat.mod_mod_of_dvd k (dvd_refl (2 ^ 64))]

/-- Counterexample to C7 as stated: call number `2^64` returns the same
identifier as call number `0` — the `uint64_t` counter wraps, so over an
unbounded adapter lifetime identifiers are reused and not strictly
increasing. -/
theorem wal_id_wraps : walIdAt (2 ^ 64) = walIdAt 0 ∧ 0 < 2 ^ 64 := by
  constructor
  · rw [walIdAt_eq, walIdAt_eq, Nat.mod_self, Nat.zero_mod]
  · norm_num

/-- C7 (amended): while fewer than `2^64` identifiers have been reserved —
the counter has not wrapped — successive `reserveWalId` calls return
strictly increasing, never-reused identifiers, which totally order the
blob's transactions for recovery replay. -/
theorem wal_id_strictly_increasing (i j : Nat) (hij : i < j)
    (hj : j < 2 ^ 64) : walIdAt i < walIdAt j := by
  rw [walIdAt_eq, walIdAt_eq, Nat.mod_eq_of_lt (lt_trans hij hj),
    Nat.mod_eq_of_lt hj]
  exact hij

/-- Witness for `wal_id_strictly_increasing`: the third call's id is below
the sixth call's id. -/
theorem wal_id_strictly_increasing_witness : walIdAt 2 < walIdAt 5 :=
  wal_id_strictly_increasing 2 5 (by decide) (by decide)

/-- Modelled from the spec (§6 Blob header format): per-arena metadata:
offset, size, watermark. -/
structure ArenaMeta where
  moff : Nat
  msize : Nat
  mwm : Nat
deriving DecidableEq, Repr

/-- Modelled from the spec (§6 Blob header format): total size, arena count
with per-arena metadata, last-checkpointed WAL identifier (the format
marker and version are fixed constants prepended by the encoder). -/
structure BlobHdr where
  totalSize : Nat
  metas : List ArenaMeta
  lastCkptId : Nat
deriving DecidableEq, Repr

/-- Model constant for the header's format marker. -/
def AD_MAGIC : Nat := 11342509

/-- Model constant for the header's format version. -/
def AD_VERSION : Nat := 1

def encodeMetas : List ArenaMeta → List Nat
  | [] => []
  | m :: ms => m.moff :: m.msize :: m.mwm :: encodeMetas ms

/-- Serialize a header.  The spec leaves the exact byte layout to the
implementation but requires it to round-trip `postCreate` → `postOpen`. -/
def encodeHdr (h : BlobHdr) : List Nat :=
  AD_MAGIC :: AD_VERSION :: h.totalSize :: h.metas.length ::
    (encodeMetas h.metas ++ [h.lastCkptId])

def decodeMetas : Nat → List Nat → Option (List ArenaMeta × List Nat)
  | 0, ws => some ([], ws)
  | k + 1, o :: s :: w :: ws =>
    match decodeMetas k ws with
    | some (ms, rest) => some (⟨o, s, w⟩ :: ms, rest)
    | none => none
  | _ + 1, _ => none

/-- Parse and validate a stored header: a wrong marker or version fails
(CorruptHeader / IncompatibleVersion), as does a malformed layout. -/
def decodeHdr : List Nat → Option BlobHdr
  | mg :: ver :: ts :: cnt :: ws =>
    if mg = AD_MAGIC ∧ ver = AD_VERSION then
      match decodeMetas cnt ws with
      | some (ms, [ck]) => some ⟨ts, ms, ck⟩
      | _ => none
    else none
  | _ => none

/-- Modelled from the spec (§4.1 `prepareCreate`): validates the size (zero
or too small for the 32 KiB header is `InvalidArgument`) and builds the
initial header: no arenas yet, checkpoint identifier zero. -/
def ad_blob_prep_create (sz : Nat) : Option BlobHdr :=
  if sz = 0 ∨ sz < 32768 then none else some ⟨sz, [], 0⟩

/-- Modelled from the spec (§4.1 `postCreate`): writes the serialized header
through the Store Adapter; the store region then holds this image. -/
def ad_blob_post_create (h : BlobHdr) : List Nat := encodeHdr h

/-- Modelled from the spec (§4.1 `postOpen`): reads the header back through
the adapter, validates marker and version, reconstructs the header
contents. -/
def ad_blob_post_open (stored : List Nat) : Option BlobHdr := decodeHdr stored

theorem decodeMetas_encodeMetas (ms : List ArenaMeta) (rest : List Nat) :
    decodeMetas ms.length (encodeMetas ms ++ rest) = some (ms, rest) := by
  induction ms with
  | nil => rfl
  | cons m ms ih =>
    show decodeMetas (ms.length + 1)
      (m.moff :: m.msize :: m.mwm :: (encodeMetas ms ++ rest)) = _
    simp only [decodeMetas, ih]

/-- C8: the blob header round-trips through create and open: decoding any
encoded header restores it exactly, and for every valid size `S` the header
written by `prepareCreate`/`postCreate` is reconstructed by
`prepareOpen`/`postOpen` with loaded total size `S`. -/
theorem header_roundtrip (sz : Nat) (h : BlobHdr)
    (hc : ad_blob_prep_create sz = some h) :
    (∀ h' : BlobHdr, decodeHdr (encodeHdr h') = some h') ∧
    ad_blob_post_open (ad_blob_post_create h) = some h ∧
    h.totalSize = sz := by
  have hrt : ∀ h' : BlobHdr, decodeHdr (encodeHdr h') = some h' := by
    intro h'
    obtain ⟨ts, ms, ck⟩ := h'
    show decodeHdr (AD_MAGIC :: AD_VERSION :: ts :: ms.length ::
      (encodeMetas ms ++ [ck])) = _
    simp [decodeHdr, decodeMetas_encodeMetas]
  refine ⟨hrt, hrt h, ?_⟩
  simp only [ad_blob_prep_create] at hc
  split at hc
  · exact absurd hc (by simp)
  · simp only [Option.some.injEq] at hc
    rw [← hc]

/-- Witness for `header_roundtrip`: a 256 MiB blob, the size used by the
`adt_blob_create` / `adt_blob_open` tests. -/
theorem header_roundtrip_witness :
    (∀ h' : BlobHdr, decodeHdr (encodeHdr h') = some h') ∧
    ad_blob_post_open (ad_blob_post_create ⟨268435456, [], 0⟩) =
      some ⟨268435456, [], 0⟩ ∧
    (BlobHdr.mk 268435456 [] 0).totalSize = 268435456 :=
  header_roundtrip 268435456 ⟨268435456, [], 0⟩ rfl

end AdMem

namespace Bdev

/-- Embedded from the bdev config test (part_000): the decimal gigabyte and
the 4 KiB AIO block size that appear in the expected config lines and in the
file-size check at line 227. -/
def gbyte : Nat := 1000000000

def blkSize : Nat := 4096

/-- Modelled from the spec: the Malloc-class SPDK config writer
(`GenConfigFile` for `ClassMalloc`, whose implementation is not under src/),
reconstructed from the TestParseBdev "MALLOC" expectation: `NumberOfLuns` is
the configured device count and `LunSizeInMB` the per-file size in GB times
1000 (decimal). -/
def genMallocCfg (deviceCount fileSizeGB : Nat) : List String :=
  ["[Malloc]",
   "    NumberOfLuns " ++ toString deviceCount,
   "    LunSizeInMB " ++ toString (fileSizeGB * 1000),
   ""]

/-- Embedded from part_000 (TestParseBdev, "MALLOC" case, lines 135-147):
the expected config for bdevNumber = 2 devices of bdevSize = 5 GB. -/
def malloc_wantBuf : List String :=
  ["[Malloc]", "    NumberOfLuns 2", "    LunSizeInMB 5000", ""]

/-- C9: the generated Malloc configuration reports `NumberOfLuns` equal to
the configured device count and `LunSizeInMB` equal to the size in GB times
1000 — matching the embedded test expectation exactly; the conversion is
decimal (5 * 1024 would not give the expected 5000). -/
theorem malloc_cfg_matches :
    genMallocCfg 2 5 = malloc_wantBuf ∧ 5 * 1000 = 5000 ∧ 5 * 1024 ≠ 5000 := by
  refine ⟨?_, rfl, by decide⟩
  decide

/-- Modelled from the spec: the AIO-file backing-file creation inside
`GenConfigFile` (`createEmptyFile`, not under src/): the requested byte size
is truncated down to a whole multiple of the block size, which is what the
test asserts at part_000 line 227. -/
def createFileSize (requestedBytes : Nat) : Nat :=
  requestedBytes / blkSize * blkSize

/-- Embedded from part_000 line 227: the size the test expects for the
created backing file given a `bdevSize` GB request. -/
def expectedSize (bdevSize : Nat) : Nat := bdevSize * gbyte / blkSize * blkSize

/-- C10: for every requested size `s` GB, the created backing file's size is
the requested bytes rounded down to a whole multiple of the block size:
it equals the test's expected value `(s*gbyte / blkSize) * blkSize`, it is a
multiple of `blkSize`, and it is the greatest such value not exceeding the
request; at the test's 1 GB it is 999997440 bytes. -/
theorem file_size_rounded (s : Nat) :
    createFileSize (s * gbyte) = expectedSize s ∧
    blkSize ∣ createFileSize (s * gbyte) ∧
    createFileSize (s * gbyte) ≤ s * gbyte ∧
    s * gbyte < createFileSize (s * gbyte) + blkSize ∧
    expectedSize 1 = 999997440 := by
  refine ⟨rfl, Nat.dvd_mul_left _ _, Nat.div_mul_le_self _ _, ?_, by decide⟩
  show s * gbyte < s * gbyte / blkSize * blkSize + blkSize
  simp only [blkSize]
  omega

end Bdev
